import Mathlib

/-!
Verification of the `lud` file-transfer server (`src/server.rs`, `src/utils.rs`)
against its natural-language specification.

The Rust code is shallowly embedded:
* paths are modelled at the component level (camino `Utf8Component` on Unix);
* the bincode wire codec is modelled over `List Nat` byte sequences;
* the async handlers are modelled as pure functions over explicit
  environments that record the result of every filesystem call and every
  incoming packet, returning the list of packets sent to the peer together
  with the filesystem effects performed.
-/

/-! ## Path model: camino `Utf8Component` on Unix (`server.rs::safe_join`) -/

/-- Model of `camino::Utf8Component`.  `drivePfx` models `Prefix`, which on
Unix is never produced by the parser but is still matched by `safe_join`. -/
inductive Utf8Component where
  | drivePfx (s : List Char)
  | rootDir
  | curDir
  | parentDir
  | normal (s : List Char)
deriving DecidableEq, Repr

/-- Splitting a character list on `'/'`, the separator used by `Utf8Path` on
Unix.  Mirrors how `Path::components` cuts the path into chunks. -/
def splitSlashAux : List Char → List Char → List (List Char)
  | [], cur => [cur.reverse]
  | c :: rest, cur =>
      if c = '/' then cur.reverse :: splitSlashAux rest []
      else splitSlashAux rest (c :: cur)

def splitSlash (s : List Char) : List (List Char) :=
  splitSlashAux s []

/-- Classification of one non-leading chunk, as in `std::path`:
empty chunks (from repeated or trailing separators) and non-leading `"."`
chunks are dropped, `".."` is `ParentDir`, anything else is `Normal`. -/
def classifyChunk (c : List Char) : Option Utf8Component :=
  if c = [] then none
  else if c = ['.'] then none
  else if c = ['.', '.'] then some Utf8Component.parentDir
  else some (Utf8Component.normal c)

/-- Model of `Utf8Path::components` on Unix: a leading `'/'` yields `RootDir`;
with no root, a leading `"."` chunk is kept as `CurDir`; all remaining chunks
go through `classifyChunk`. -/
def components (s : String) : List Utf8Component :=
  match s.data with
  | [] => []
  | c :: _ =>
      if c = '/' then
        Utf8Component.rootDir :: (splitSlash s.data).filterMap classifyChunk
      else
        match splitSlash s.data with
        | [] => []
        | first :: rest =>
            if first = ['.'] then
              Utf8Component.curDir :: rest.filterMap classifyChunk
            else
              (splitSlash s.data).filterMap classifyChunk

/-- The component-walking loop of `safe_join` (`server.rs` lines 479–497):
`Prefix`/`RootDir` abort, `CurDir` is skipped, `ParentDir` pops the
normalized buffer (aborting when it is empty, i.e. when `pop()` returns
`false`), and a `Normal` component is appended unless empty. -/
def normalizeComponents : List Utf8Component → List (List Char) → Option (List (List Char))
  | [], acc => some acc
  | c :: rest, acc =>
      match c with
      | Utf8Component.drivePfx _ => none
      | Utf8Component.rootDir => none
      | Utf8Component.curDir => normalizeComponents rest acc
      | Utf8Component.parentDir =>
          if acc.isEmpty then none else normalizeComponents rest acc.dropLast
      | Utf8Component.normal part =>
          if part = [] then none else normalizeComponents rest (acc ++ [part])

/-- Component-level model of `Utf8Path::starts_with`: `startsWithComps self
pat` holds when `pat` is a component-wise prefix of `self`. -/
def startsWithComps : List Utf8Component → List Utf8Component → Bool
  | _, [] => true
  | [], _ :: _ => false
  | a :: as, b :: bs => a == b && startsWithComps as bs

/-- Model of `safe_join` from `src/server.rs` (lines 471–506).  A base path is
represented by its component list; `base.join(normalized)` appends the
normalized (relative) components. -/
def safe_join (base : List Utf8Component) (relative : String) :
    Option (List Utf8Component) :=
  if relative = "" ∨ relative = "." ∨ relative = "./" then some base
  else
    match normalizeComponents (components relative) [] with
    | none => none
    | some normalized =>
        let joined := base ++ normalized.map Utf8Component.normal
        if startsWithComps joined base then some joined else none

/-- The component-walking loop of the duplicate `safe_join` in
`src/utils.rs` (lines 55–73); textually identical to the server's loop. -/
def utils_normalizeComponents : List Utf8Component → List (List Char) → Option (List (List Char))
  | [], acc => some acc
  | c :: rest, acc =>
      match c with
      | Utf8Component.drivePfx _ => none
      | Utf8Component.rootDir => none
      | Utf8Component.curDir => utils_normalizeComponents rest acc
      | Utf8Component.parentDir =>
          if acc.isEmpty then none else utils_normalizeComponents rest acc.dropLast
      | Utf8Component.normal part =>
          if part = [] then none else utils_normalizeComponents rest (acc ++ [part])

/-- Model of `safe_join` from `src/utils.rs` (lines 47–82). -/
def utils_safe_join (base : List Utf8Component) (relative : String) :
    Option (List Utf8Component) :=
  if relative = "" ∨ relative = "." ∨ relative = "./" then some base
  else
    match utils_normalizeComponents (components relative) [] with
    | none => none
    | some normalized =>
        let joined := base ++ normalized.map Utf8Component.normal
        if startsWithComps joined base then some joined else none

/-- Number of `..` components. -/
def parentCount (l : List Utf8Component) : Nat :=
  l.countP (fun c => match c with | Utf8Component.parentDir => true | _ => false)

/-- Number of `Normal` components. -/
def normalCount (l : List Utf8Component) : Nat :=
  l.countP (fun c => match c with | Utf8Component.normal _ => true | _ => false)

/-! ### Lemmas about `normalizeComponents` -/

theorem normalizeComponents_rootDir_mem (l : List Utf8Component)
    (acc : List (List Char)) (h : Utf8Component.rootDir ∈ l) :
    normalizeComponents l acc = none := by
  induction l generalizing acc with
  | nil => cases h
  | cons c rest ih =>
      rcases List.mem_cons.mp h with hc | hmem
      · subst hc; rfl
      · cases c with
        | drivePfx s => rfl
        | rootDir => rfl
        | curDir => simpa [normalizeComponents] using ih acc hmem
        | parentDir =>
            by_cases hacc : acc.isEmpty <;>
              simp [normalizeComponents, hacc, ih _ hmem]
        | normal part =>
            by_cases hp : part = [] <;>
              simp [normalizeComponents, hp, ih _ hmem]

theorem normalizeComponents_drivePfx_mem (l : List Utf8Component)
    (acc : List (List Char)) (s : List Char)
    (h : Utf8Component.drivePfx s ∈ l) :
    normalizeComponents l acc = none := by
  induction l generalizing acc with
  | nil => cases h
  | cons c rest ih =>
      rcases List.mem_cons.mp h with hc | hmem
      · subst hc; rfl
      · cases c with
        | drivePfx t => rfl
        | rootDir => rfl
        | curDir => simpa [normalizeComponents] using ih acc hmem
        | parentDir =>
            by_cases hacc : acc.isEmpty <;>
              simp [normalizeComponents, hacc, ih _ hmem]
        | normal part =>
            by_cases hp : part = [] <;>
              simp [normalizeComponents, hp, ih _ hmem]

theorem normalizeComponents_emptyNormal_mem (l : List Utf8Component)
    (acc : List (List Char)) (h : Utf8Component.normal [] ∈ l) :
    normalizeComponents l acc = none := by
  induction l generalizing acc with
  | nil => cases h
  | cons c rest ih =>
      rcases List.mem_cons.mp h with hc | hmem
      · subst hc; simp [normalizeComponents]
      · cases c with
        | drivePfx t => rfl
        | rootDir => rfl
        | curDir => simpa [normalizeComponents] using ih acc hmem
        | parentDir =>
            by_cases hacc : acc.isEmpty <;>
              simp [normalizeComponents, hacc, ih _ hmem]
        | normal part =>
            by_cases hp : part = [] <;>
              simp [normalizeComponents, hp, ih _ hmem]

/-- Along any successful normalization, every prefix of the component list
has at most `acc.length` more `..` components than `Normal` components. -/
theorem normalizeComponents_prefix_bound (l : List Utf8Component)
    (acc : List (List Char)) (out : List (List Char))
    (h : normalizeComponents l acc = some out) :
    ∀ pre, pre <+: l → parentCount pre ≤ normalCount pre + acc.length := by
  induction l generalizing acc with
  | nil =>
      intro pre hpre
      rw [List.prefix_nil.mp hpre]
      simp [parentCount, normalCount]
  | cons c rest ih =>
      intro pre hpre
      rcases pre with _ | ⟨p, pre'⟩
      · simp [parentCount, normalCount]
      · obtain ⟨rfl, hpre'⟩ := (List.cons_prefix_cons).mp hpre
        cases p with
        | drivePfx s => simp [normalizeComponents] at h
        | rootDir => simp [normalizeComponents] at h
        | curDir =>
            have := ih acc h pre' hpre'
            simp only [parentCount, normalCount, List.countP_cons] at *
            omega
        | parentDir =>
            by_cases hacc : acc.isEmpty
            · simp [normalizeComponents, hacc] at h
            · simp only [normalizeComponents, hacc, if_neg] at h
              have := ih acc.dropLast h pre' hpre'
              have hlen : acc.dropLast.length = acc.length - 1 := by
                simp [List.length_dropLast]
              have hpos : 0 < acc.length := by
                cases acc with
                | nil => simp [List.isEmpty] at hacc
                | cons a as => simp
              simp only [parentCount, normalCount, List.countP_cons,
                if_true, if_false, Bool.false_eq_true, reduceIte] at *
              omega
        | normal part =>
            by_cases hp : part = []
            · simp [normalizeComponents, hp] at h
            · simp only [normalizeComponents, hp, if_neg] at h
              have := ih (acc ++ [part]) h pre' hpre'
              simp only [parentCount, normalCount, List.countP_cons,
                List.length_append, List.length_singleton, if_true, if_false,
                Bool.false_eq_true, reduceIte] at *
              omega

theorem utils_normalizeComponents_eq (l : List Utf8Component)
    (acc : List (List Char)) :
    utils_normalizeComponents l acc = normalizeComponents l acc := by
  induction l generalizing acc with
  | nil => rfl
  | cons c rest ih =>
      cases c <;> simp [normalizeComponents, utils_normalizeComponents, ih]

theorem startsWithComps_append (base rest : List Utf8Component) :
    startsWithComps (base ++ rest) base = true := by
  induction base with
  | nil => cases rest <;> rfl
  | cons b bs ih => simp [startsWithComps, ih]

/-- C10: the `safe_join` in `src/utils.rs` and the `safe_join` in
`src/server.rs` are extensionally equal: on every pair `(base, relative)`
the two functions return the same result. -/
theorem utils_safe_join_eq_safe_join (base : List Utf8Component)
    (relative : String) :
    utils_safe_join base relative = safe_join base relative := by
  unfold utils_safe_join safe_join
  rw [utils_normalizeComponents_eq]

/-- C1: safe-join soundness.  Whenever `safe_join base rel` returns `some p`,
`base` is a component-wise prefix of `p`; the normalization loop returns
`none` on any absolute-root or prefix component and on any empty `Normal`
component; a relative path starting from the root, or one whose `..`
components at some point outnumber the preceding normal components (and so
would pop past the empty buffer and escape the base), is rejected with
`none`; and a relative path equal to `""`, `"."` or `"./"` returns the base
itself. -/
theorem safe_join_sound (base : List Utf8Component) (rel : String)
    (comps : List Utf8Component) (acc : List (List Char)) :
    (∀ p, safe_join base rel = some p → base <+: p) ∧
    ((Utf8Component.rootDir ∈ comps ∨ (∃ s, Utf8Component.drivePfx s ∈ comps)) →
      normalizeComponents comps acc = none) ∧
    (Utf8Component.normal [] ∈ comps → normalizeComponents comps acc = none) ∧
    (Utf8Component.rootDir ∈ components rel → safe_join base rel = none) ∧
    ((∃ pre, pre <+: components rel ∧ normalCount pre < parentCount pre) →
      safe_join base rel = none) ∧
    ((rel = "" ∨ rel = "." ∨ rel = "./") → safe_join base rel = some base) := by
  refine ⟨?_, ?_, ?_, ?_, ?_, ?_⟩
  · intro p hp
    by_cases hsp : rel = "" ∨ rel = "." ∨ rel = "./"
    · simp only [safe_join, if_pos hsp, Option.some.injEq] at hp
      exact hp ▸ List.prefix_refl base
    · simp only [safe_join, if_neg hsp] at hp
      cases hnorm : normalizeComponents (components rel) [] with
      | none => rw [hnorm] at hp; cases hp
      | some normalized =>
          rw [hnorm] at hp
          by_cases hsw :
              startsWithComps (base ++ normalized.map Utf8Component.normal) base = true
          · simp only [hsw, if_pos, Option.some.injEq] at hp
            exact hp ▸ List.prefix_append base _
          · simp [hsw] at hp
  · rintro (hmem | ⟨s, hmem⟩)
    · exact normalizeComponents_rootDir_mem comps acc hmem
    · exact normalizeComponents_drivePfx_mem comps acc s hmem
  · intro hmem
    exact normalizeComponents_emptyNormal_mem comps acc hmem
  · intro hmem
    have hsp : ¬ (rel = "" ∨ rel = "." ∨ rel = "./") := by
      rintro (rfl | rfl | rfl) <;> revert hmem <;> decide
    simp only [safe_join, if_neg hsp,
      normalizeComponents_rootDir_mem (components rel) [] hmem]
  · rintro ⟨pre, hpre, hcount⟩
    have hsp : ¬ (rel = "" ∨ rel = "." ∨ rel = "./") := by
      rintro (rfl | rfl | rfl)
      · rw [show components "" = [] from by decide, List.prefix_nil] at hpre
        subst hpre
        simp [parentCount, normalCount] at hcount
      · rw [show components "." = [Utf8Component.curDir] from by decide] at hpre
        rcases (List.prefix_cons_iff.mp hpre) with h | ⟨t, rfl, ht⟩
        · subst h; simp [parentCount, normalCount] at hcount
        · rw [List.prefix_nil.mp ht] at hcount
          simp [parentCount, normalCount, List.countP_cons] at hcount
      · rw [show components "./" = [Utf8Component.curDir] from by decide] at hpre
        rcases (List.prefix_cons_iff.mp hpre) with h | ⟨t, rfl, ht⟩
        · subst h; simp [parentCount, normalCount] at hcount
        · rw [List.prefix_nil.mp ht] at hcount
          simp [parentCount, normalCount, List.countP_cons] at hcount
    cases hnorm : normalizeComponents (components rel) [] with
    | none => simp only [safe_join, if_neg hsp, hnorm]
    | some out =>
        have := normalizeComponents_prefix_bound (components rel) [] out hnorm pre hpre
        simp only [List.length_nil, Nat.add_zero] at this
        omega
  · intro hsp
    simp only [safe_join, if_pos hsp]

/-- Witness for C1 at concrete inputs: a join inside the base is
component-prefixed by the base, root/prefix/empty components are rejected,
`"/etc"` and `"../x"` are rejected, and `"."` returns the base. -/
theorem safe_join_sound_witness :
    ([Utf8Component.normal ['s']] <+:
      [Utf8Component.normal ['s'], Utf8Component.normal ['a']]) ∧
    normalizeComponents [Utf8Component.rootDir] [] = none ∧
    normalizeComponents [Utf8Component.drivePfx ['C']] [] = none ∧
    normalizeComponents [Utf8Component.normal []] [] = none ∧
    safe_join [Utf8Component.normal ['s']] "/etc" = none ∧
    safe_join [Utf8Component.normal ['s']] "../x" = none ∧
    safe_join [Utf8Component.normal ['s']] "." = some [Utf8Component.normal ['s']] :=
  ⟨(safe_join_sound [Utf8Component.normal ['s']] "a" [] []).1
      [Utf8Component.normal ['s'], Utf8Component.normal ['a']] (by decide),
    (safe_join_sound [] "" [Utf8Component.rootDir] []).2.1 (Or.inl (by decide)),
    (safe_join_sound [] "" [Utf8Component.drivePfx ['C']] []).2.1
      (Or.inr ⟨['C'], by decide⟩),
    (safe_join_sound [] "" [Utf8Component.normal []] []).2.2.1 (by decide),
    (safe_join_sound [Utf8Component.normal ['s']] "/etc" [] []).2.2.2.1 (by decide),
    (safe_join_sound [Utf8Component.normal ['s']] "../x" [] []).2.2.2.2.1
      ⟨[Utf8Component.parentDir], by decide, by decide⟩,
    (safe_join_sound [Utf8Component.normal ['s']] "." [] []).2.2.2.2.2
      (Or.inr (Or.inl rfl))⟩

/-! ## Wire codec model: bincode v1 legacy options (fixed-width integers,
little-endian, variant tag as `u32`, strings and sequences length-prefixed
with a `u64`) framed by a 4-byte big-endian payload length
(`Connection::read_packet` / `Connection::write_packet`, `server.rs` 50–86). -/

abbrev Bytes := List Nat

/-- Little-endian byte expansion, `width` bytes. -/
def leBytes : Nat → Nat → Bytes
  | 0, _ => []
  | k + 1, n => n % 256 :: leBytes k (n / 256)

def u32le (n : Nat) : Bytes := leBytes 4 n

def u64le (n : Nat) : Bytes := leBytes 8 n

/-- Model of `u32::to_be_bytes` applied to `len as u32`: the truncation to
32 bits performed by the `as u32` cast in `write_packet` is inherent in the
4-byte expansion. -/
def u32be (n : Nat) : Bytes := (leBytes 4 n).reverse

def decodeLE : Bytes → Nat
  | [] => 0
  | b :: rest => b + 256 * decodeLE rest

/-- Model of `u32::from_be_bytes`. -/
def decodeBE (l : Bytes) : Nat := decodeLE l.reverse

theorem leBytes_length (k n : Nat) : (leBytes k n).length = k := by
  induction k generalizing n with
  | zero => rfl
  | succ k ih => simp [leBytes, ih]

theorem decodeLE_leBytes (k n : Nat) : decodeLE (leBytes k n) = n % 256 ^ k := by
  induction k generalizing n with
  | zero => simp [leBytes, decodeLE, Nat.mod_one]
  | succ k ih =>
      have h1 : n % (256 * 256 ^ k) % 256 = n % 256 :=
        Nat.mod_mod_of_dvd n ⟨256 ^ k, rfl⟩
      have h2 : n / 256 % 256 ^ k = n % (256 * 256 ^ k) / 256 :=
        (Nat.mod_mul_right_div_self n 256 (256 ^ k)).symm
      have h3 := Nat.div_add_mod (n % (256 * 256 ^ k)) 256
      have hsplit : n % 256 ^ (k + 1) = n % 256 + 256 * (n / 256 % 256 ^ k) := by
        have hp : (256 : Nat) ^ (k + 1) = 256 * 256 ^ k := by ring
        rw [hp, h2]
        omega
      simp [leBytes, decodeLE, ih, hsplit]

theorem decodeBE_u32be (n : Nat) : decodeBE (u32be n) = n % 2 ^ 32 := by
  have : (256 : Nat) ^ 4 = 2 ^ 32 := by norm_num
  simp [decodeBE, u32be, List.reverse_reverse, decodeLE_leBytes, this]

theorem u32be_length (n : Nat) : (u32be n).length = 4 := by
  simp [u32be, leBytes_length]

/-- Wire model of the `File` struct (`server.rs` 35–39): serde serializes the
fields in declaration order. -/
structure WFile where
  path : Bytes
  size : Nat
deriving DecidableEq, Repr

/-- Wire model of the `Packet` enum (`server.rs` 20–33), strings carried as
their UTF-8 byte sequences.  The constructor order fixes the bincode variant
tags 0–10. -/
inductive Packet where
  | ok
  | error (msg : Bytes)
  | downloadStart (path : Bytes) (size : Nat) (mode : Nat)
  | downloadChunk (data : Bytes)
  | downloadEnd
  | uploadStart (path : Bytes) (size : Nat) (mode : Nat) (force : Bool)
  | uploadChunk (data : Bytes)
  | uploadEnd
  | list (path : Bytes) (entries : List WFile)
  | remove (path : Bytes) (force : Bool) (recursive : Bool)
  | ping
deriving DecidableEq, Repr

/-- Continuation byte `0x80..0xBF`. -/
def isCont (b : Nat) : Bool := 128 ≤ b && b < 192

/-- UTF-8 validity of a byte sequence; bincode's `String` deserializer
rejects the payload when `str::from_utf8` fails. -/
def utf8Valid : Bytes → Bool
  | [] => true
  | b :: rest =>
      if b < 128 then utf8Valid rest
      else if b < 194 then false
      else if b < 224 then
        match rest with
        | b2 :: r => isCont b2 && utf8Valid r
        | [] => false
      else if b < 240 then
        match rest with
        | b2 :: b3 :: r =>
            (if b = 224 then 160 ≤ b2 && b2 < 192
             else if b = 237 then 128 ≤ b2 && b2 < 160
             else isCont b2) && (isCont b3 && utf8Valid r)
        | _ => false
      else if b < 245 then
        match rest with
        | b2 :: b3 :: b4 :: r =>
            (if b = 240 then 144 ≤ b2 && b2 < 192
             else if b = 244 then 128 ≤ b2 && b2 < 144
             else isCont b2) && (isCont b3 && (isCont b4 && utf8Valid r))
        | _ => false
      else false

/-- Length-prefixed byte sequence (bincode `String` / `Vec<u8>`). -/
def encBytes (b : Bytes) : Bytes := u64le b.length ++ b

def encBool (b : Bool) : Bytes := [if b then 1 else 0]

def encFile (f : WFile) : Bytes := encBytes f.path ++ u64le f.size

def encFileList : List WFile → Bytes
  | [] => []
  | f :: fs => encFile f ++ encFileList fs

/-- Model of `bincode::serialize` on `Packet`: `u32` variant tag followed by
the fields in declaration order. -/
def serializePacket : Packet → Bytes
  | Packet.ok => u32le 0
  | Packet.error msg => u32le 1 ++ encBytes msg
  | Packet.downloadStart path size mode =>
      u32le 2 ++ encBytes path ++ u64le size ++ u32le mode
  | Packet.downloadChunk data => u32le 3 ++ encBytes data
  | Packet.downloadEnd => u32le 4
  | Packet.uploadStart path size mode force =>
      u32le 5 ++ encBytes path ++ u64le size ++ u32le mode ++ encBool force
  | Packet.uploadChunk data => u32le 6 ++ encBytes data
  | Packet.uploadEnd => u32le 7
  | Packet.list path entries =>
      u32le 8 ++ encBytes path ++ u64le entries.length ++ encFileList entries
  | Packet.remove path force recursive =>
      u32le 9 ++ encBytes path ++ encBool force ++ encBool recursive
  | Packet.ping => u32le 10

/-- Model of `Connection::write_packet`: 4-byte big-endian length of the
serialized payload (truncated by `as u32`), then the payload. -/
def write_packet (p : Packet) : Bytes :=
  u32be (serializePacket p).length ++ serializePacket p

/-- Reading exactly `n` bytes (`read_exact`): fails on a short source. -/
def readN (n : Nat) (b : Bytes) : Option (Bytes × Bytes) :=
  if n ≤ b.length then some (b.take n, b.drop n) else none

/-- Fixed-width little-endian integer field. -/
def readNat (width : Nat) (b : Bytes) : Option (Nat × Bytes) :=
  match readN width b with
  | some (bs, rest) => some (decodeLE bs, rest)
  | none => none

def readBool (b : Bytes) : Option (Bool × Bytes) :=
  match b with
  | 0 :: rest => some (false, rest)
  | 1 :: rest => some (true, rest)
  | _ => none

def readByteSeq (b : Bytes) : Option (Bytes × Bytes) :=
  match readNat 8 b with
  | some (len, rest) => readN len rest
  | none => none

def readString (b : Bytes) : Option (Bytes × Bytes) :=
  match readByteSeq b with
  | some (s, rest) => if utf8Valid s then some (s, rest) else none
  | none => none

def readFileRec (b : Bytes) : Option (WFile × Bytes) :=
  match readString b with
  | some (p, rest) =>
      match readNat 8 rest with
      | some (sz, rest2) => some (⟨p, sz⟩, rest2)
      | none => none
  | none => none

def readFiles : Nat → Bytes → Option (List WFile × Bytes)
  | 0, b => some ([], b)
  | n + 1, b =>
      match readFileRec b with
      | some (f, rest) =>
          match readFiles n rest with
          | some (fs, rest2) => some (f :: fs, rest2)
          | none => none
      | none => none

/-- Model of bincode deserialization of one `Packet` from the front of a
buffer, returning the unconsumed remainder. -/
def parsePacket (b : Bytes) : Option (Packet × Bytes) :=
  match readNat 4 b with
  | none => none
  | some (tag, r0) =>
      if tag = 0 then some (Packet.ok, r0)
      else if tag = 1 then
        match readString r0 with
        | some (m, r) => some (Packet.error m, r)
        | none => none
      else if tag = 2 then
        match readString r0 with
        | some (p, r1) =>
            match readNat 8 r1 with
            | some (sz, r2) =>
                match readNat 4 r2 with
                | some (md, r3) => some (Packet.downloadStart p sz md, r3)
                | none => none
            | none => none
        | none => none
      else if tag = 3 then
        match readByteSeq r0 with
        | some (d, r) => some (Packet.downloadChunk d, r)
        | none => none
      else if tag = 4 then some (Packet.downloadEnd, r0)
      else if tag = 5 then
        match readString r0 with
        | some (p, r1) =>
            match readNat 8 r1 with
            | some (sz, r2) =>
                match readNat 4 r2 with
                | some (md, r3) =>
                    match readBool r3 with
                    | some (fc, r4) => some (Packet.uploadStart p sz md fc, r4)
                    | none => none
                | none => none
            | none => none
        | none => none
      else if tag = 6 then
        match readByteSeq r0 with
        | some (d, r) => some (Packet.uploadChunk d, r)
        | none => none
      else if tag = 7 then some (Packet.uploadEnd, r0)
      else if tag = 8 then
        match readString r0 with
        | some (p, r1) =>
            match readNat 8 r1 with
            | some (cnt, r2) =>
                match readFiles cnt r2 with
                | some (es, r3) => some (Packet.list p es, r3)
                | none => none
            | none => none
        | none => none
      else if tag = 9 then
        match readString r0 with
        | some (p, r1) =>
            match readBool r1 with
            | some (fc, r2) =>
                match readBool r2 with
                | some (rc, r3) => some (Packet.remove p fc rc, r3)
                | none => none
            | none => none
        | none => none
      else if tag = 10 then some (Packet.ping, r0)
      else none

/-- Model of `bincode::deserialize` on the framed buffer (legacy options
allow trailing bytes). -/
def deserializePacket (buf : Bytes) : Option Packet :=
  match parsePacket buf with
  | some (p, _) => some p
  | none => none

/-- Model of `Connection::read_packet`: read exactly 4 length bytes, decode
big-endian, read exactly that many payload bytes, deserialize. -/
def read_packet (stream : Bytes) : Option (Packet × Bytes) :=
  match readN 4 stream with
  | none => none
  | some (lenBytes, r1) =>
      match readN (decodeBE lenBytes) r1 with
      | none => none
      | some (buf, r2) =>
          match deserializePacket buf with
          | some p => some (p, r2)
          | none => none

/-- Well-formedness of a packet as produced by the Rust types: string fields
are valid UTF-8, `u64`/`u32` fields and sequence lengths fit their width. -/
def strWF (s : Bytes) : Bool := utf8Valid s && decide (s.length < 2 ^ 64)

def fileWF (f : WFile) : Bool := strWF f.path && decide (f.size < 2 ^ 64)

def Packet.wf : Packet → Bool
  | Packet.ok => true
  | Packet.error m => strWF m
  | Packet.downloadStart p sz md =>
      strWF p && decide (sz < 2 ^ 64) && decide (md < 2 ^ 32)
  | Packet.downloadChunk d => decide (d.length < 2 ^ 64)
  | Packet.downloadEnd => true
  | Packet.uploadStart p sz md _ =>
      strWF p && decide (sz < 2 ^ 64) && decide (md < 2 ^ 32)
  | Packet.uploadChunk d => decide (d.length < 2 ^ 64)
  | Packet.uploadEnd => true
  | Packet.list p es =>
      strWF p && decide (es.length < 2 ^ 64) && es.all fileWF
  | Packet.remove p _ _ => strWF p
  | Packet.ping => true

/-! ### Round-trip lemmas for the codec -/

theorem readN_exact (xs rest : Bytes) :
    readN xs.length (xs ++ rest) = some (xs, rest) := by
  simp [readN, List.take_left, List.drop_left]

theorem readNat_leBytes (k n : Nat) (rest : Bytes) :
    readNat k (leBytes k n ++ rest) = some (n % 256 ^ k, rest) := by
  have h := readN_exact (leBytes k n) rest
  rw [leBytes_length] at h
  simp [readNat, h, decodeLE_leBytes]

theorem readNat4 (n : Nat) (rest : Bytes) :
    readNat 4 (u32le n ++ rest) = some (n % 2 ^ 32, rest) := by
  have : (256 : Nat) ^ 4 = 2 ^ 32 := by norm_num
  simpa [u32le, this] using readNat_leBytes 4 n rest

theorem readNat8 (n : Nat) (rest : Bytes) :
    readNat 8 (u64le n ++ rest) = some (n % 2 ^ 64, rest) := by
  have : (256 : Nat) ^ 8 = 2 ^ 64 := by norm_num
  simpa [u64le, this] using readNat_leBytes 8 n rest

theorem readNat4_lt {n : Nat} (hn : n < 2 ^ 32) (rest : Bytes) :
    readNat 4 (u32le n ++ rest) = some (n, rest) := by
  rw [readNat4, Nat.mod_eq_of_lt hn]

theorem readNat8_lt {n : Nat} (hn : n < 2 ^ 64) (rest : Bytes) :
    readNat 8 (u64le n ++ rest) = some (n, rest) := by
  rw [readNat8, Nat.mod_eq_of_lt hn]

theorem readByteSeq_enc (s rest : Bytes) (hlen : s.length < 2 ^ 64) :
    readByteSeq (encBytes s ++ rest) = some (s, rest) := by
  simp [readByteSeq, encBytes, List.append_assoc, readNat8_lt hlen, readN_exact]

theorem readString_enc (s rest : Bytes) (hutf : utf8Valid s = true)
    (hlen : s.length < 2 ^ 64) :
    readString (encBytes s ++ rest) = some (s, rest) := by
  simp [readString, readByteSeq_enc s rest hlen, hutf]

theorem readBool_enc (b : Bool) (rest : Bytes) :
    readBool (encBool b ++ rest) = some (b, rest) := by
  cases b <;> simp [encBool, readBool]

theorem readFileRec_enc (f : WFile) (rest : Bytes) (h : fileWF f = true) :
    readFileRec (encFile f ++ rest) = some (f, rest) := by
  obtain ⟨p, sz⟩ := f
  simp only [fileWF, strWF, Bool.and_eq_true, decide_eq_true_eq] at h
  obtain ⟨⟨hutf, hplen⟩, hsz⟩ := h
  simp [readFileRec, encFile, List.append_assoc, readString_enc p _ hutf hplen,
    readNat8_lt hsz]

theorem readFiles_enc (fs : List WFile) (rest : Bytes)
    (h : fs.all fileWF = true) :
    readFiles fs.length (encFileList fs ++ rest) = some (fs, rest) := by
  induction fs with
  | nil => simp [readFiles, encFileList]
  | cons f fs ih =>
      simp only [List.all_cons, Bool.and_eq_true] at h
      simp [readFiles, encFileList, List.append_assoc,
        readFileRec_enc f _ h.1, ih h.2]

/-- Serialization followed by deserialization restores every well-formed
packet, with trailing input untouched. -/
theorem parsePacket_serialize (p : Packet) (rest : Bytes)
    (hwf : p.wf = true) :
    parsePacket (serializePacket p ++ rest) = some (p, rest) := by
  cases p with
  | ok => simp [serializePacket, parsePacket, readNat4]
  | error msg =>
      simp only [Packet.wf, strWF, Bool.and_eq_true, decide_eq_true_eq] at hwf
      simp [serializePacket, parsePacket, List.append_assoc, readNat4,
        readString_enc msg _ hwf.1 hwf.2]
  | downloadStart path size mode =>
      simp only [Packet.wf, strWF, Bool.and_eq_true, decide_eq_true_eq] at hwf
      obtain ⟨⟨⟨hutf, hplen⟩, hsz⟩, hmd⟩ := hwf
      simp [serializePacket, parsePacket, List.append_assoc, readNat4,
        readNat8_lt hsz, readNat4_lt hmd, readString_enc path _ hutf hplen]
  | downloadChunk data =>
      simp only [Packet.wf, decide_eq_true_eq] at hwf
      simp [serializePacket, parsePacket, List.append_assoc, readNat4,
        readByteSeq_enc data _ hwf]
  | downloadEnd => simp [serializePacket, parsePacket, readNat4]
  | uploadStart path size mode force =>
      simp only [Packet.wf, strWF, Bool.and_eq_true, decide_eq_true_eq] at hwf
      obtain ⟨⟨⟨hutf, hplen⟩, hsz⟩, hmd⟩ := hwf
      simp [serializePacket, parsePacket, List.append_assoc, readNat4,
        readNat8_lt hsz, readNat4_lt hmd, readString_enc path _ hutf hplen,
        readBool_enc]
  | uploadChunk data =>
      simp only [Packet.wf, decide_eq_true_eq] at hwf
      simp [serializePacket, parsePacket, List.append_assoc, readNat4,
        readByteSeq_enc data _ hwf]
  | uploadEnd => simp [serializePacket, parsePacket, readNat4]
  | list path entries =>
      simp only [Packet.wf, strWF, Bool.and_eq_true, decide_eq_true_eq] at hwf
      obtain ⟨⟨⟨hutf, hplen⟩, hcnt⟩, hall⟩ := hwf
      simp [serializePacket, parsePacket, List.append_assoc, readNat4,
        readNat8_lt hcnt, readString_enc path _ hutf hplen,
        readFiles_enc entries rest hall]
  | remove path force recursive =>
      simp only [Packet.wf, strWF, Bool.and_eq_true, decide_eq_true_eq] at hwf
      simp [serializePacket, parsePacket, List.append_assoc, readNat4,
        readString_enc path _ hwf.1 hwf.2, readBool_enc]
  | ping => simp [serializePacket, parsePacket, readNat4]

/-- C2 (amended): for every well-formed packet whose bincode payload is
shorter than 2^32 bytes, framing and deserialization invert serialization
and framing exactly, leaving trailing stream bytes untouched. -/
theorem read_packet_write_packet (p : Packet) (rest : Bytes)
    (hwf : p.wf = true) (hlen : (serializePacket p).length < 2 ^ 32) :
    read_packet (write_packet p ++ rest) = some (p, rest) := by
  have h1 : readN 4 (u32be (serializePacket p).length ++ (serializePacket p ++ rest))
      = some (u32be (serializePacket p).length, serializePacket p ++ rest) := by
    have := readN_exact (u32be (serializePacket p).length) (serializePacket p ++ rest)
    rwa [u32be_length] at this
  have hdec : decodeBE (u32be (serializePacket p).length) = (serializePacket p).length := by
    rw [decodeBE_u32be, Nat.mod_eq_of_lt hlen]
  have h3 : deserializePacket (serializePacket p) = some p := by
    have hp := parsePacket_serialize p [] hwf
    rw [List.append_nil] at hp
    simp [deserializePacket, hp]
  simp [read_packet, write_packet, List.append_assoc, h1, hdec,
    readN_exact (serializePacket p) rest, h3]

/-- Witness for the amended C2 at a concrete packet with trailing data. -/
theorem read_packet_write_packet_witness :
    read_packet (write_packet (Packet.error [104, 105]) ++ [7])
      = some (Packet.error [104, 105], [7]) :=
  read_packet_write_packet (Packet.error [104, 105]) [7] (by decide) (by decide)

/-- An all-zero byte sequence of the given length (kept abstract so that no
simplification ever materializes it). -/
def zeros : Nat → Bytes
  | 0 => []
  | n + 1 => 0 :: zeros n

theorem zeros_length (n : Nat) : (zeros n).length = n := by
  induction n with
  | zero => rfl
  | succ n ih => simp [zeros, ih]

/-- The `DownloadChunk` packet whose payload is exactly 2^32 bytes; its
serialized form is 2^32 + 12 bytes long, so the `as u32` cast in
`write_packet` truncates the length prefix. -/
def bigChunk : Packet := Packet.downloadChunk (zeros (2 ^ 32))

theorem serializePacket_bigChunk :
    serializePacket bigChunk = (u32le 3 ++ u64le (2 ^ 32)) ++ zeros (2 ^ 32) := by
  show u32le 3 ++ encBytes (zeros (2 ^ 32)) = _
  rw [encBytes, zeros_length, List.append_assoc]

/-- Failure of `read_packet` reduced to its three stages, stated over
abstract byte sequences. -/
theorem read_packet_none (stream lenB r1 buf r2 : Bytes)
    (h1 : readN 4 stream = some (lenB, r1))
    (h2 : readN (decodeBE lenB) r1 = some (buf, r2))
    (h3 : deserializePacket buf = none) :
    read_packet stream = none := by
  simp only [read_packet, h1, h2, h3]

/-- Counterexample to C2 as stated: for the schema packet `bigChunk`
(a 4 GiB `DownloadChunk`), decoding the encoding does not yield the packet
back — the truncated length prefix announces 12 bytes, and deserializing
those 12 bytes fails, so `read_packet` returns an error rather than
`bigChunk`. -/
theorem read_packet_write_packet_bigChunk :
    read_packet (write_packet bigChunk) = none := by
  have h12 : (u32le 3 ++ u64le (2 ^ 32)).length = 12 := by
    rw [List.length_append, u32le, u64le, leBytes_length, leBytes_length]
  have hlen : (serializePacket bigChunk).length = 2 ^ 32 + 12 := by
    rw [serializePacket_bigChunk, List.length_append, h12, zeros_length]
    omega
  have h1 : readN 4 (u32be (serializePacket bigChunk).length ++ serializePacket bigChunk)
      = some (u32be (serializePacket bigChunk).length, serializePacket bigChunk) := by
    have := readN_exact (u32be (serializePacket bigChunk).length) (serializePacket bigChunk)
    rwa [u32be_length] at this
  have hdec : decodeBE (u32be (serializePacket bigChunk).length) = 12 := by
    rw [decodeBE_u32be, hlen]
    omega
  have h2 : readN 12 (serializePacket bigChunk)
      = some (u32le 3 ++ u64le (2 ^ 32), zeros (2 ^ 32)) := by
    rw [serializePacket_bigChunk]
    have := readN_exact (u32le 3 ++ u64le (2 ^ 32)) (zeros (2 ^ 32))
    rwa [h12] at this
  have h3 : deserializePacket (u32le 3 ++ u64le (2 ^ 32)) = none := by
    have ht := readNat4 3 (u64le (2 ^ 32))
    rw [Nat.mod_eq_of_lt (by norm_num : (3 : Nat) < 2 ^ 32)] at ht
    have h8 := readNat8 (2 ^ 32) ([] : Bytes)
    rw [List.append_nil,
      Nat.mod_eq_of_lt (by norm_num : (2 : Nat) ^ 32 < 2 ^ 64)] at h8
    have hnone : readN (2 ^ 32) ([] : Bytes) = none := by
      rw [readN, if_neg (by norm_num)]
    have hbs : readByteSeq (u64le (2 ^ 32)) = none := by
      simp only [readByteSeq, h8, hnone]
    norm_num at ht hbs
    rw [deserializePacket, parsePacket]
    norm_num [ht, hbs]
  have h1' : readN 4 (write_packet bigChunk)
      = some (u32be (serializePacket bigChunk).length, serializePacket bigChunk) := by
    rw [write_packet]
    exact h1
  have h2' : readN (decodeBE (u32be (serializePacket bigChunk).length))
        (serializePacket bigChunk)
      = some (u32le 3 ++ u64le (2 ^ 32), zeros (2 ^ 32)) := by
    rw [hdec]
    exact h2
  exact read_packet_none (write_packet bigChunk)
    (u32be (serializePacket bigChunk).length) (serializePacket bigChunk)
    (u32le 3 ++ u64le (2 ^ 32)) (zeros (2 ^ 32)) h1' h2' h3

/-- C9: `read_packet` imposes no upper bound on the announced frame length.
For every announced length `L` up to 2^32 − 1 and every payload of exactly
`L` bytes, the result is exactly the result of deserializing the payload —
success never depends on the size of the frame; failure occurs exactly on a
short length prefix, a short payload, or a payload that fails to
deserialize. -/
theorem read_packet_no_cap :
    (∀ L payload rest, L ≤ 2 ^ 32 - 1 → payload.length = L →
      read_packet (u32be L ++ (payload ++ rest))
        = (deserializePacket payload).map (fun p => (p, rest))) ∧
    (∀ stream, stream.length < 4 → read_packet stream = none) ∧
    (∀ L payload, payload.length < L → L ≤ 2 ^ 32 - 1 →
      read_packet (u32be L ++ payload) = none) := by
  refine ⟨?_, ?_, ?_⟩
  · intro L payload rest hL hlen
    have h1 : readN 4 (u32be L ++ (payload ++ rest))
        = some (u32be L, payload ++ rest) := by
      have := readN_exact (u32be L) (payload ++ rest)
      rwa [u32be_length] at this
    have hdec : decodeBE (u32be L) = L := by
      rw [decodeBE_u32be, Nat.mod_eq_of_lt (by omega)]
    have h2 : readN L (payload ++ rest) = some (payload, rest) := by
      have := readN_exact payload rest
      rwa [hlen] at this
    cases hd : deserializePacket payload with
    | none => simp [read_packet, h1, hdec, h2, hd]
    | some q => simp [read_packet, h1, hdec, h2, hd]
  · intro stream h
    have h4 : ¬ 4 ≤ stream.length := by omega
    simp [read_packet, readN, h4]
  · intro L payload hshort hL
    have h1 : readN 4 (u32be L ++ payload) = some (u32be L, payload) := by
      have := readN_exact (u32be L) payload
      rwa [u32be_length] at this
    have hdec : decodeBE (u32be L) = L := by
      rw [decodeBE_u32be, Nat.mod_eq_of_lt (by omega)]
    have h2 : readN L payload = none := by
      simp [readN]
      omega
    simp [read_packet, h1, hdec, h2]

/-- Witness for C9 at concrete frames: a complete well-formed frame parses,
a 2-byte stream fails on the length prefix, and a frame announcing 5 bytes
but carrying 4 fails on the payload read. -/
theorem read_packet_no_cap_witness :
    (read_packet (u32be 4 ++ (u32le 0 ++ [2]))
      = (deserializePacket (u32le 0)).map (fun p => (p, [2]))) ∧
    read_packet [0, 0] = none ∧
    read_packet (u32be 5 ++ u32le 0) = none :=
  ⟨read_packet_no_cap.1 4 (u32le 0) [2] (by decide) (by decide),
    read_packet_no_cap.2.1 [0, 0] (by decide),
    read_packet_no_cap.2.2 5 (u32le 0) (by decide) (by decide)⟩

/-! ## Server handler models (`server.rs` 121–469)

Handlers are modelled as pure functions over environments that fix the
outcome of every filesystem call and the sequence of incoming packets.
Socket sends are recorded in order; `send_ok`/`send_error` ignore socket
errors in the source, and outgoing socket failures inside the streaming
loops are not modelled (sends always succeed in the model). -/

/-- The `File` entries of a `List` response as handlers build them. -/
structure FileEntry where
  path : String
  size : Nat
deriving DecidableEq, Repr

/-- Server→client packets at the handler level, with message strings kept
as Lean strings. -/
inductive Pkt where
  | ok
  | err (msg : String)
  | downloadStart (path : String) (size : Nat) (mode : Nat)
  | downloadChunk (data : Bytes)
  | downloadEnd
  | listing (path : String) (entries : List FileEntry)
deriving DecidableEq, Repr

/-- Is the packet an `Error`? -/
def isErrPkt : Pkt → Bool
  | Pkt.err _ => true
  | _ => false

/-- Number of `Error` packets in a trace. -/
def errCount (l : List Pkt) : Nat := l.countP isErrPkt

/-- Fuel-indexed model of the download read loop (`server.rs` 254–267):
each iteration reads up to `CHUNK_SIZE = 64 * 1024` bytes and stops at the
first empty read.  `chunksOf` instantiates the fuel with the content length,
which always suffices. -/
def chunksOfAux : Nat → Bytes → List Bytes
  | 0, _ => []
  | _ + 1, [] => []
  | fuel + 1, l => l.take 65536 :: chunksOfAux fuel (l.drop 65536)

def chunksOf (l : Bytes) : List Bytes := chunksOfAux l.length l

/-- Environment of one `handle_download` run. -/
structure DownloadEnv where
  base : List Utf8Component
  filePath : String
  statOk : Bool
  metaSize : Nat
  metaMode : Nat
  openOk : Bool
  content : Bytes
deriving Repr

structure DOut where
  sent : List Pkt
  result : Bool
deriving DecidableEq, Repr

/-- Model of `handle_download` (`server.rs` 216–275).  A failed
`fs::metadata` or `fs::File::open` propagates through `?` with no packet
sent; only the path rejection sends an explicit error. -/
def handle_download (env : DownloadEnv) : DOut :=
  match safe_join env.base env.filePath with
  | none => ⟨[Pkt.err "Invalid file path"], false⟩
  | some _ =>
      if !env.statOk then ⟨[], false⟩
      else
        if !env.openOk then
          ⟨[Pkt.downloadStart env.filePath env.metaSize env.metaMode], false⟩
        else
          ⟨Pkt.downloadStart env.filePath env.metaSize env.metaMode
            :: (chunksOf env.content).map Pkt.downloadChunk
            ++ [Pkt.downloadEnd], true⟩

/-- One `read_packet` outcome inside the upload loop; a chunk carries the
outcome of its `write_all`. -/
inductive ReadRes where
  | readFail
  | chunk (data : Bytes) (writeOk : Bool)
  | uploadEnd
  | otherPkt
deriving DecidableEq, Repr

inductive LoopExit where
  | ended
  | readFailed
  | writeFailed
  | unexpected
deriving DecidableEq, Repr

structure LoopOut where
  sent : List Pkt
  written : List Bytes
  received : Nat
  exit : LoopExit
deriving DecidableEq, Repr

/-- Model of the upload chunk loop (`server.rs` 319–339): chunks are
written to disk as received, `received_bytes` is bumped before the write,
`UploadEnd` breaks, and any other packet sends one error and aborts. -/
def uploadLoop : List ReadRes → LoopOut
  | [] => ⟨[], [], 0, LoopExit.readFailed⟩
  | ReadRes.readFail :: _ => ⟨[], [], 0, LoopExit.readFailed⟩
  | ReadRes.chunk d ok :: rest =>
      if ok then
        let o := uploadLoop rest
        ⟨o.sent, d :: o.written, d.length + o.received, o.exit⟩
      else ⟨[], [], d.length, LoopExit.writeFailed⟩
  | ReadRes.uploadEnd :: _ => ⟨[], [], 0, LoopExit.ended⟩
  | ReadRes.otherPkt :: _ =>
      ⟨[Pkt.err "Unexpected packet during upload"], [], 0, LoopExit.unexpected⟩

/-- Environment of one `handle_upload` run. -/
structure UploadEnv where
  base : List Utf8Component
  filePath : String
  totalSize : Nat
  mode : Nat
  force : Bool
  mkdirOk : Bool
  targetExists : Bool
  existsCheckOk : Bool
  openOk : Bool
  setPermsOk : Bool
  incoming : List ReadRes
deriving Repr

structure UOut where
  sent : List Pkt
  written : List Bytes
  openAttempted : Bool
  opened : Bool
  result : Bool
deriving DecidableEq, Repr

/-- Model of `handle_upload` (`server.rs` 277–352).  The existence check is
`fs::try_exists(..).unwrap_or(false)`: a failed check is treated as "does
not exist".  `create_dir_all`, `open` and `set_permissions` failures
propagate through `?` with no packet sent.  `opened` records a successful
`create(true).write(true).truncate(true)` open of the target. -/
def handle_upload (env : UploadEnv) : UOut :=
  match safe_join env.base env.filePath with
  | none => ⟨[Pkt.err "Invalid file path"], [], false, false, false⟩
  | some _ =>
      if !env.mkdirOk then ⟨[Pkt.ok], [], false, false, false⟩
      else if !env.force && (if env.existsCheckOk then env.targetExists else false) then
        ⟨[Pkt.ok, Pkt.err "File already exists"], [], false, false, false⟩
      else if !env.openOk then ⟨[Pkt.ok], [], true, false, false⟩
      else if !env.setPermsOk then ⟨[Pkt.ok], [], true, true, false⟩
      else
        let o := uploadLoop env.incoming
        match o.exit with
        | LoopExit.ended =>
            if o.received ≠ env.totalSize then
              ⟨Pkt.ok :: o.sent ++ [Pkt.err "File size mismatch"], o.written,
                true, true, false⟩
            else ⟨Pkt.ok :: o.sent, o.written, true, true, true⟩
        | _ => ⟨Pkt.ok :: o.sent, o.written, true, true, false⟩

/-- What `fs::metadata` reports the target to be. -/
inductive FKind where
  | file
  | dir
  | other
deriving DecidableEq, Repr

/-- Environment of one `handle_remove` run. -/
structure RemoveEnv where
  base : List Utf8Component
  path : String
  force : Bool
  recursive : Bool
  targetExists : Bool
  existsCheckOk : Bool
  metadataOk : Bool
  kind : FKind
  removeFileOk : Bool
  dirNotEmpty : Bool
  removeDirOk : Bool
  removeDirAllOk : Bool
deriving Repr

structure ROut where
  sent : List Pkt
  deleted : Bool
  result : Bool
deriving DecidableEq, Repr

/-- Model of `handle_remove` (`server.rs` 354–434).  `deleted` records
whether a filesystem deletion succeeded.  A target that is neither a file
nor a directory falls through the two `if`s and is acknowledged with `Ok`
without any deletion. -/
def handle_remove (env : RemoveEnv) : ROut :=
  match safe_join env.base env.path with
  | none => ⟨[Pkt.err "Invalid path"], false, false⟩
  | some _ =>
      if !env.existsCheckOk then
        ⟨[Pkt.err "Failed to check path existence"], false, false⟩
      else if !env.targetExists then
        if env.force then ⟨[Pkt.ok], false, true⟩
        else ⟨[Pkt.err "Path does not exist"], false, false⟩
      else if !env.metadataOk then
        ⟨[Pkt.err "Failed to get path metadata"], false, false⟩
      else
        match env.kind with
        | FKind.file =>
            if env.removeFileOk then ⟨[Pkt.ok], true, true⟩
            else ⟨[Pkt.err "Failed to delete file"], false, false⟩
        | FKind.dir =>
            if env.recursive then
              if env.removeDirAllOk then ⟨[Pkt.ok], true, true⟩
              else ⟨[Pkt.err "Failed to delete directory recursively"], false, false⟩
            else
              if env.dirNotEmpty then
                ⟨[Pkt.err "Directory not empty (use recursive flag)"], false, false⟩
              else if env.removeDirOk then ⟨[Pkt.ok], true, true⟩
              else ⟨[Pkt.err "Failed to delete directory"], false, false⟩
        | FKind.other => ⟨[Pkt.ok], false, true⟩

/-- One walkdir entry as `handle_list` inspects it: directory flag, whether
its metadata is readable, its size, and whether `strip_prefix` plus
`to_str` produce a path string. -/
structure WalkEntry where
  isDir : Bool
  metaOk : Bool
  size : Nat
  stripOk : Bool
  pathStr : String
deriving Repr

/-- The entry filter of `handle_list` (`server.rs` 447–460). -/
def listFiles (es : List WalkEntry) : List FileEntry :=
  es.filterMap (fun e =>
    if !e.isDir && (e.metaOk && e.stripOk) then some ⟨e.pathStr, e.size⟩ else none)

/-- Environment of one `handle_list` run. -/
structure ListEnv where
  base : List Utf8Component
  path : String
  entries : List WalkEntry
  sendListOk : Bool
deriving Repr

structure LOut where
  sent : List Pkt
  result : Bool
deriving DecidableEq, Repr

/-- Model of `handle_list` (`server.rs` 436–469): walk entries are filtered,
one `List` packet is sent (a send failure aborts with an error result),
then the handler itself sends `Ok`. -/
def handle_list (env : ListEnv) : LOut :=
  match safe_join env.base env.path with
  | none => ⟨[Pkt.err "Invalid path"], false⟩
  | some _ =>
      if !env.sendListOk then ⟨[], false⟩
      else ⟨[Pkt.listing env.path (listFiles env.entries), Pkt.ok], true⟩

/-- The dispatcher's success acknowledgement (`handle_connection`,
`server.rs` 179–194): after a handler returns `Ok(())` one more `Ok` packet
is sent. -/
def listTrace (env : ListEnv) : List Pkt :=
  let o := handle_list env
  o.sent ++ (if o.result then [Pkt.ok] else [])

def removeTrace (env : RemoveEnv) : List Pkt :=
  let o := handle_remove env
  o.sent ++ (if o.result then [Pkt.ok] else [])

/-! ### Lemmas about the streaming loops -/

theorem chunksOfAux_sum (fuel : Nat) :
    ∀ l : Bytes, l.length ≤ fuel →
      ((chunksOfAux fuel l).map List.length).sum = l.length := by
  induction fuel with
  | zero =>
      intro l hl
      have : l = [] := List.eq_nil_of_length_eq_zero (Nat.le_zero.mp hl)
      subst this
      rfl
  | succ fuel ih =>
      intro l hl
      cases l with
      | nil => rfl
      | cons a rest =>
          simp only [chunksOfAux, List.map_cons, List.sum_cons]
          have hd : ((a :: rest).drop 65536).length ≤ fuel := by
            simp only [List.length_drop, List.length_cons]
            simp only [List.length_cons] at hl
            omega
          rw [ih ((a :: rest).drop 65536) hd]
          simp only [List.length_take, List.length_drop, List.length_cons]
          omega

theorem chunksOfAux_mem (fuel : Nat) :
    ∀ l : Bytes, ∀ c ∈ chunksOfAux fuel l, c ≠ [] ∧ c.length ≤ 65536 := by
  induction fuel with
  | zero =>
      intro l c hc
      simp [chunksOfAux] at hc
  | succ fuel ih =>
      intro l c hc
      cases l with
      | nil => simp [chunksOfAux] at hc
      | cons a rest =>
          simp only [chunksOfAux, List.mem_cons] at hc
          rcases hc with rfl | hc
          · refine ⟨by simp [List.take_eq_nil_iff], ?_⟩
            rw [List.length_take]
            exact Nat.min_le_left _ _
          · exact ih _ c hc

theorem chunksOf_sum (l : Bytes) :
    ((chunksOf l).map List.length).sum = l.length :=
  chunksOfAux_sum l.length l le_rfl

theorem chunksOf_mem (l : Bytes) :
    ∀ c ∈ chunksOf l, c ≠ [] ∧ c.length ≤ 65536 :=
  chunksOfAux_mem l.length l

theorem uploadLoop_chunks (chunks : List Bytes) :
    uploadLoop (chunks.map (fun d => ReadRes.chunk d true) ++ [ReadRes.uploadEnd])
      = ⟨[], chunks, (chunks.map List.length).sum, LoopExit.ended⟩ := by
  induction chunks with
  | nil => rfl
  | cons d rest ih => simp [uploadLoop, ih]

theorem uploadLoop_sent_of_ended (rs : List ReadRes) :
    (uploadLoop rs).exit = LoopExit.ended → (uploadLoop rs).sent = [] := by
  induction rs with
  | nil => intro h; simp [uploadLoop] at h
  | cons r rest ih =>
      cases r with
      | readFail => intro h; simp [uploadLoop] at h
      | chunk d ok =>
          cases ok with
          | false => intro h; simp [uploadLoop] at h
          | true =>
              intro h
              simp only [uploadLoop] at h ⊢
              exact ih h
      | uploadEnd => intro _; rfl
      | otherPkt => intro h; simp [uploadLoop] at h

theorem uploadLoop_errCount (rs : List ReadRes) :
    errCount (uploadLoop rs).sent ≤ 1 := by
  induction rs with
  | nil => simp [uploadLoop, errCount]
  | cons r rest ih =>
      cases r with
      | readFail => simp [uploadLoop, errCount]
      | chunk d ok =>
          cases ok with
          | false => simp [uploadLoop, errCount]
          | true => simpa [uploadLoop] using ih
      | uploadEnd => simp [uploadLoop, errCount]
      | otherPkt => simp [uploadLoop, errCount, isErrPkt]

/-- The oversize upload: announced size 0, one 1-byte chunk accepted. -/
def overEnv : UploadEnv :=
  ⟨[], "f", 0, 0, true, true, false, true, true, true,
    [ReadRes.chunk [7] true, ReadRes.uploadEnd]⟩

/-- Counterexample to C3 as stated: the server writes the whole received
chunk to disk although the announced size is 0 — one byte more than `size`
— and only then reports the size mismatch.  So "under no circumstances does
it write more than `size` bytes" is false of the code. -/
theorem handle_upload_writes_beyond_size :
    overEnv.totalSize = 0 ∧
    ((handle_upload overEnv).written.map List.length).sum = 1 ∧
    (handle_upload overEnv).sent = [Pkt.ok, Pkt.err "File size mismatch"] := by
  decide

/-- C3 (amended): when all filesystem calls succeed and the client sends
chunks followed by `UploadEnd`, the server writes exactly the received
chunks to disk (whose total may exceed `size`); it replies with a bare `Ok`
ready-signal and succeeds iff the received total equals `size`, and
otherwise sends `Error("File size mismatch")` after having written
everything it received. -/
theorem upload_size_invariant (env : UploadEnv) (chunks : List Bytes)
    (hsj : safe_join env.base env.filePath ≠ none)
    (hmk : env.mkdirOk = true)
    (hex : env.force = true ∨ (env.existsCheckOk = true ∧ env.targetExists = false))
    (hop : env.openOk = true) (hsp : env.setPermsOk = true)
    (hin : env.incoming
      = chunks.map (fun d => ReadRes.chunk d true) ++ [ReadRes.uploadEnd]) :
    (handle_upload env).written = chunks ∧
    ((chunks.map List.length).sum = env.totalSize →
      handle_upload env = ⟨[Pkt.ok], chunks, true, true, true⟩) ∧
    ((chunks.map List.length).sum ≠ env.totalSize →
      handle_upload env
        = ⟨[Pkt.ok, Pkt.err "File size mismatch"], chunks, true, true, false⟩) := by
  cases h : safe_join env.base env.filePath with
  | none => exact absurd h hsj
  | some j =>
      have hcond : (!env.force
          && (if env.existsCheckOk then env.targetExists else false)) = false := by
        rcases hex with hf | ⟨hc, ht⟩
        · simp [hf]
        · simp [hc, ht]
      have hmain : handle_upload env
          = if (chunks.map List.length).sum ≠ env.totalSize then
              ⟨[Pkt.ok, Pkt.err "File size mismatch"], chunks, true, true, false⟩
            else ⟨[Pkt.ok], chunks, true, true, true⟩ := by
        simp only [handle_upload, h, hmk, hop, hsp, hcond, hin, uploadLoop_chunks,
          Bool.not_true, Bool.false_eq_true, if_false, List.cons_append,
          List.nil_append]
      by_cases hsum : (chunks.map List.length).sum = env.totalSize
      · rw [hmain, if_neg (by simpa using hsum)]
        exact ⟨rfl, fun _ => rfl, fun hne => absurd hsum hne⟩
      · rw [hmain, if_pos hsum]
        exact ⟨rfl, fun heq => absurd heq hsum, fun _ => rfl⟩

/-- Witness for the amended C3: a two-chunk upload of total 3 = announced
size succeeds; announcing 5 instead yields the size-mismatch error. -/
theorem upload_size_invariant_witness :
    handle_upload ⟨[], "f", 3, 0, true, true, false, true, true, true,
        [ReadRes.chunk [1, 2] true, ReadRes.chunk [3] true, ReadRes.uploadEnd]⟩
      = ⟨[Pkt.ok], [[1, 2], [3]], true, true, true⟩ ∧
    handle_upload ⟨[], "f", 5, 0, true, true, false, true, true, true,
        [ReadRes.chunk [1, 2] true, ReadRes.chunk [3] true, ReadRes.uploadEnd]⟩
      = ⟨[Pkt.ok, Pkt.err "File size mismatch"], [[1, 2], [3]], true, true, false⟩ :=
  ⟨(upload_size_invariant _ [[1, 2], [3]] (by decide) rfl (Or.inl rfl) rfl rfl
      rfl).2.1 (by decide),
    (upload_size_invariant _ [[1, 2], [3]] (by decide) rfl (Or.inl rfl) rfl rfl
      rfl).2.2 (by decide)⟩

/-- The blocked overwrite whose existence check fails: the target exists,
`force` is false, and `try_exists` returns `Err`. -/
def existsEnv : UploadEnv :=
  ⟨[], "f", 0, 0, false, true, true, false, true, true, [ReadRes.uploadEnd]⟩

/-- Counterexample to C8 as stated: with `force = false` and an existing
target, a failing `try_exists` is collapsed to `false` by `unwrap_or(false)`,
so the handler does not reply `Error("File already exists")` and instead
opens the existing file with `truncate(true)` — the target is truncated. -/
theorem upload_overwrites_when_check_fails :
    existsEnv.force = false ∧ existsEnv.targetExists = true ∧
    (handle_upload existsEnv).opened = true ∧
    Pkt.err "File already exists" ∉ (handle_upload existsEnv).sent := by
  decide

/-- C8 (amended): with `force = false`, an existing target and a succeeding
existence check, the server replies `Ok` (ready) then
`Error("File already exists")`, never attempts to open or truncate the
target, and writes nothing; if the existence check itself fails, the file
is treated as absent and is opened and truncated. -/
theorem upload_refuses_overwrite (env : UploadEnv)
    (hsj : safe_join env.base env.filePath ≠ none)
    (hmk : env.mkdirOk = true) (hf : env.force = false)
    (hex : env.targetExists = true) (hchk : env.existsCheckOk = true) :
    handle_upload env
      = ⟨[Pkt.ok, Pkt.err "File already exists"], [], false, false, false⟩ := by
  cases h : safe_join env.base env.filePath with
  | none => exact absurd h hsj
  | some j => simp [handle_upload, h, hmk, hf, hex, hchk]

/-- Witness for the amended C8 at a concrete environment. -/
theorem upload_refuses_overwrite_witness :
    handle_upload ⟨[], "g", 0, 0, false, true, true, true, true, true, []⟩
      = ⟨[Pkt.ok, Pkt.err "File already exists"], [], false, false, false⟩ :=
  upload_refuses_overwrite
    ⟨[], "g", 0, 0, false, true, true, true, true, true, []⟩
    (by decide) rfl rfl rfl rfl

/-- A download whose `fs::metadata` call fails. -/
def statFailEnv : DownloadEnv := ⟨[], "f", false, 0, 0, true, []⟩

/-- Counterexample to C5 as stated: the failed stat terminates the download
handler, but no `Error` packet at all is emitted to the peer — the `?`
operator only logs at the dispatcher. -/
theorem download_stat_failure_sends_nothing :
    (handle_download statFailEnv).result = false ∧
    (handle_download statFailEnv).sent = [] := by
  decide

theorem errCount_chunks (l : List Bytes) :
    errCount (l.map Pkt.downloadChunk) = 0 := by
  induction l with
  | nil => rfl
  | cons c rest ih => simp [errCount, isErrPkt, List.countP_cons, ih]

/-- C5 (amended): in every handler the first error terminates the run and
at most one `Error` packet is ever emitted, but filesystem failures after
path resolution in download and upload (`fs::metadata`, `fs::File::open`,
`create_dir_all`, …) terminate the handler with **no** `Error` packet sent
— only `handle_remove` maps its filesystem errors to `Error` packets. -/
theorem error_emission (denv : DownloadEnv) (uenv : UploadEnv)
    (renv : RemoveEnv) :
    errCount (handle_download denv).sent ≤ 1 ∧
    errCount (handle_upload uenv).sent ≤ 1 ∧
    errCount (handle_remove renv).sent ≤ 1 ∧
    (safe_join denv.base denv.filePath ≠ none → denv.statOk = false →
      handle_download denv = ⟨[], false⟩) ∧
    (safe_join denv.base denv.filePath ≠ none → denv.statOk = true →
      denv.openOk = false →
      handle_download denv
        = ⟨[Pkt.downloadStart denv.filePath denv.metaSize denv.metaMode],
          false⟩) ∧
    (safe_join uenv.base uenv.filePath ≠ none → uenv.mkdirOk = false →
      handle_upload uenv = ⟨[Pkt.ok], [], false, false, false⟩) := by
  refine ⟨?_, ?_, ?_, ?_, ?_, ?_⟩
  · cases h : safe_join denv.base denv.filePath with
    | none => simp [handle_download, h, errCount, isErrPkt, List.countP_cons]
    | some j =>
        have hz : List.countP (isErrPkt ∘ Pkt.downloadChunk)
            (chunksOf denv.content) = 0 := by
          rw [List.countP_eq_zero]
          intro a ha
          simp [Function.comp, isErrPkt]
        by_cases hs : denv.statOk <;> by_cases ho : denv.openOk <;>
          simp [handle_download, h, hs, ho, errCount, isErrPkt,
            List.countP_cons, List.countP_append, hz]
  · cases h : safe_join uenv.base uenv.filePath with
    | none => simp [handle_upload, h, errCount, isErrPkt, List.countP_cons]
    | some j =>
        have hloop1 : errCount (uploadLoop uenv.incoming).sent ≤ 1 :=
          uploadLoop_errCount _
        rcases hexit : (uploadLoop uenv.incoming).exit with _ | _ | _ | _
        case ended =>
          have hnil := uploadLoop_sent_of_ended uenv.incoming hexit
          by_cases hrec : (uploadLoop uenv.incoming).received = uenv.totalSize <;>
            by_cases hmk : uenv.mkdirOk <;> by_cases hf : uenv.force <;>
            by_cases hc : uenv.existsCheckOk <;> by_cases he : uenv.targetExists <;>
            by_cases hop : uenv.openOk <;> by_cases hsp : uenv.setPermsOk <;>
            simp [handle_upload, h, hexit, hnil, hrec, hmk, hf, hc, he, hop,
              hsp, errCount, isErrPkt, List.countP_cons, List.countP_append]
        all_goals
          by_cases hmk : uenv.mkdirOk <;> by_cases hf : uenv.force <;>
            by_cases hc : uenv.existsCheckOk <;> by_cases he : uenv.targetExists <;>
            by_cases hop : uenv.openOk <;> by_cases hsp : uenv.setPermsOk <;>
            (simp [handle_upload, h, hexit, hmk, hf, hc, he, hop, hsp,
                errCount, isErrPkt, List.countP_cons]
              <;> simpa [errCount] using hloop1)
  · cases h : safe_join renv.base renv.path with
    | none => simp [handle_remove, h, errCount, isErrPkt, List.countP_cons]
    | some j =>
        cases hk : renv.kind <;>
          simp only [handle_remove, h, hk] <;>
          split_ifs <;>
          simp [errCount, isErrPkt, List.countP_cons]
  · intro hsj hstat
    cases h : safe_join denv.base denv.filePath with
    | none => exact absurd h hsj
    | some j => simp [handle_download, h, hstat]
  · intro hsj hstat hopen
    cases h : safe_join denv.base denv.filePath with
    | none => exact absurd h hsj
    | some j => simp [handle_download, h, hstat, hopen]
  · intro hsj hmk
    cases h : safe_join uenv.base uenv.filePath with
    | none => exact absurd h hsj
    | some j => simp [handle_upload, h, hmk]

/-- Witness for the amended C5 at concrete environments: a failed stat
terminates the download with no packet sent, and a failed directory
creation terminates the upload with only the ready `Ok` sent. -/
theorem error_emission_witness :
    handle_download ⟨[], "b", false, 9, 9, true, [1]⟩ = ⟨[], false⟩ ∧
    handle_upload ⟨[], "c", 0, 0, true, false, false, true, true, true, []⟩
      = ⟨[Pkt.ok], [], false, false, false⟩ ∧
    errCount (handle_download ⟨[], "a", true, 0, 0, true, [5]⟩).sent ≤ 1 :=
  ⟨(error_emission ⟨[], "b", false, 9, 9, true, [1]⟩
      ⟨[], "c", 0, 0, true, false, false, true, true, true, []⟩
      ⟨[], "r", true, true, true, true, true, FKind.file, true, false, true,
        true⟩).2.2.2.1 (by decide) rfl,
    (error_emission ⟨[], "b", false, 9, 9, true, [1]⟩
      ⟨[], "c", 0, 0, true, false, false, true, true, true, []⟩
      ⟨[], "r", true, true, true, true, true, FKind.file, true, false, true,
        true⟩).2.2.2.2.2 (by decide) rfl,
    (error_emission ⟨[], "a", true, 0, 0, true, [5]⟩
      ⟨[], "c", 0, 0, true, false, false, true, true, true, []⟩
      ⟨[], "r", true, true, true, true, true, FKind.file, true, false, true,
        true⟩).1⟩

theorem count_downloadEnd_chunks (l : List Bytes) :
    (l.map Pkt.downloadChunk).count Pkt.downloadEnd = 0 := by
  induction l with
  | nil => rfl
  | cons c rest ih => simp [List.count_cons, ih]

/-- C6: when the path resolves, the stat and the open succeed, and the file
is not concurrently modified (its metadata size equals its content length),
the handler sends `DownloadStart(path, size, mode)`, then one
`DownloadChunk` per non-empty 64 KiB read — each chunk non-empty and at
most 65536 bytes — then exactly one `DownloadEnd`, and the chunk byte
counts sum to the announced `size`. -/
theorem download_stream (env : DownloadEnv)
    (hsj : safe_join env.base env.filePath ≠ none)
    (hstat : env.statOk = true) (hopen : env.openOk = true)
    (hsize : env.metaSize = env.content.length) :
    handle_download env
      = ⟨Pkt.downloadStart env.filePath env.metaSize env.metaMode
          :: (chunksOf env.content).map Pkt.downloadChunk
          ++ [Pkt.downloadEnd], true⟩ ∧
    (∀ c ∈ chunksOf env.content, c ≠ [] ∧ c.length ≤ 65536) ∧
    ((chunksOf env.content).map List.length).sum = env.metaSize ∧
    (handle_download env).sent.count Pkt.downloadEnd = 1 := by
  cases h : safe_join env.base env.filePath with
  | none => exact absurd h hsj
  | some j =>
      have hmain : handle_download env
          = ⟨Pkt.downloadStart env.filePath env.metaSize env.metaMode
              :: (chunksOf env.content).map Pkt.downloadChunk
              ++ [Pkt.downloadEnd], true⟩ := by
        simp [handle_download, h, hstat, hopen]
      refine ⟨hmain, chunksOf_mem _, by rw [chunksOf_sum, hsize], ?_⟩
      rw [hmain]
      simp [List.count_cons, List.count_append, count_downloadEnd_chunks]

/-- Witness for C6 at a concrete 3-byte file. -/
theorem download_stream_witness :
    handle_download ⟨[], "f", true, 3, 420, true, [1, 2, 3]⟩
      = ⟨[Pkt.downloadStart "f" 3 420, Pkt.downloadChunk [1, 2, 3],
          Pkt.downloadEnd], true⟩ := by
  have h := (download_stream ⟨[], "f", true, 3, 420, true, [1, 2, 3]⟩
    (by decide) rfl rfl (by decide)).1
  rw [h]
  decide

/-- C7: remove semantics for a safely resolving path with a succeeding
existence check.  A nonexistent target with `force` yields `Ok` with no
deletion — and since no filesystem effect occurs, running the handler again
in the unchanged environment returns the same `Ok` — without `force` it
yields `Error("Path does not exist")`; a non-empty directory without
`recursive` yields `Error("Directory not empty (use recursive flag)")` and
deletes nothing. -/
theorem remove_semantics (env : RemoveEnv)
    (hsj : safe_join env.base env.path ≠ none)
    (hchk : env.existsCheckOk = true) :
    (env.targetExists = false → env.force = true →
      handle_remove env = ⟨[Pkt.ok], false, true⟩) ∧
    (env.targetExists = false → env.force = false →
      handle_remove env = ⟨[Pkt.err "Path does not exist"], false, false⟩) ∧
    (env.targetExists = true → env.metadataOk = true → env.kind = FKind.dir →
      env.recursive = false → env.dirNotEmpty = true →
      handle_remove env
        = ⟨[Pkt.err "Directory not empty (use recursive flag)"], false,
          false⟩) := by
  cases h : safe_join env.base env.path with
  | none => exact absurd h hsj
  | some j =>
      refine ⟨fun h1 h2 => ?_, fun h1 h2 => ?_, fun h1 h2 h3 h4 h5 => ?_⟩ <;>
        simp [handle_remove, h, hchk, h1, h2, *]

/-- Witness for C7 at three concrete environments. -/
theorem remove_semantics_witness :
    handle_remove ⟨[], "x", true, false, false, true, true, FKind.file, true,
        false, true, true⟩ = ⟨[Pkt.ok], false, true⟩ ∧
    handle_remove ⟨[], "x", false, false, false, true, true, FKind.file, true,
        false, true, true⟩ = ⟨[Pkt.err "Path does not exist"], false, false⟩ ∧
    handle_remove ⟨[], "d", false, false, true, true, true, FKind.dir, true,
        true, true, true⟩
      = ⟨[Pkt.err "Directory not empty (use recursive flag)"], false, false⟩ :=
  ⟨(remove_semantics ⟨[], "x", true, false, false, true, true, FKind.file,
      true, false, true, true⟩ (by decide) rfl).1 rfl rfl,
    (remove_semantics ⟨[], "x", false, false, false, true, true, FKind.file,
      true, false, true, true⟩ (by decide) rfl).2.1 rfl rfl,
    (remove_semantics ⟨[], "d", false, false, true, true, true, FKind.dir,
      true, true, true, true⟩ (by decide) rfl).2.2 rfl rfl rfl rfl rfl⟩

/-- A successful empty List and a successful forced Remove of a
nonexistent path. -/
def listEnv0 : ListEnv := ⟨[], "d", [], true⟩

def removeEnv0 : RemoveEnv :=
  ⟨[], "x", true, false, false, true, true, FKind.file, true, false, true,
    true⟩

/-- Counterexample to C4 as stated: on a successful List the connection
carries `List`, then the handler's `Ok`, then a second `Ok` from the
dispatcher; a successful forced Remove likewise ends with two `Ok`
packets, so "in no success case is a second Ok packet sent" is false. -/
theorem success_trace_double_ok :
    listTrace listEnv0 = [Pkt.listing "d" [], Pkt.ok, Pkt.ok] ∧
    (listTrace listEnv0).count Pkt.ok = 2 ∧
    removeTrace removeEnv0 = [Pkt.ok, Pkt.ok] := by
  decide

/-- C4 (amended): every successful List run sends exactly one
`List(requested_path, entries)` packet followed by exactly two `Ok` packets
(one from `handle_list`, one from the dispatcher), and every successful
Remove run — including removing a nonexistent path with `force` — sends
exactly two terminal `Ok` packets. -/
theorem success_trace_exactly (lenv : ListEnv) (renv : RemoveEnv) :
    ((handle_list lenv).result = true →
      listTrace lenv
        = [Pkt.listing lenv.path (listFiles lenv.entries), Pkt.ok, Pkt.ok]) ∧
    ((handle_remove renv).result = true →
      removeTrace renv = [Pkt.ok, Pkt.ok]) := by
  constructor
  · intro hres
    cases h : safe_join lenv.base lenv.path with
    | none => simp [handle_list, h] at hres
    | some j =>
        by_cases hs : lenv.sendListOk
        · simp [listTrace, handle_list, h, hs]
        · simp [handle_list, h, hs] at hres
  · intro hres
    cases h : safe_join renv.base renv.path with
    | none => simp [handle_remove, h] at hres
    | some j =>
        cases hk : renv.kind <;>
          simp only [removeTrace, handle_remove, h, hk] <;>
          simp only [removeTrace, handle_remove, h, hk] at hres <;>
          split_ifs at hres ⊢ <;>
          simp_all

/-- Witness for the amended C4 at concrete successful runs. -/
theorem success_trace_exactly_witness :
    listTrace ⟨[], "e", [], true⟩ = [Pkt.listing "e" [], Pkt.ok, Pkt.ok] ∧
    removeTrace ⟨[], "y", true, false, false, true, true, FKind.other, true,
        false, true, true⟩ = [Pkt.ok, Pkt.ok] :=
  ⟨(success_trace_exactly ⟨[], "e", [], true⟩
      ⟨[], "y", true, false, false, true, true, FKind.other, true, false,
        true, true⟩).1 (by decide),
    (success_trace_exactly ⟨[], "e", [], true⟩
      ⟨[], "y", true, false, false, true, true, FKind.other, true, false,
        true, true⟩).2 (by decide)⟩
